import Mathlib

/-!
Shallow embedding of the sequence access-method core of this repository:

* `seq_local_nextval`, `seq_local_setval` — the local sequence strategy
  (src/backend/access/sequence/seqlocalam.c).
* `nextval_internal`, `do_setval`, `init_sequence` — the session cache layer
  (src/backend/commands/sequence.c).
* the snowflake strategy and its ID codec (contrib/snowflake/snowflake.c).

Machine `int64` values are modelled as `Int`; the C code's overflow guards in
the fetch loop are written precisely so that the guarded arithmetic never
overflows, hence exact `Int` arithmetic coincides with the C semantics on the
inputs considered here.  `ereport(ERROR, ...)` raises a PostgreSQL error that
unwinds before any later statement executes; it is modelled as `Except.error`.
Errors raised inside `seq_local_nextval`'s fetch loop therefore leave the
in-buffer sequence tuple untouched, since the code only writes the tuple after
the loop completes; the `..._state` wrappers make that explicit.
-/

deriving instance DecidableEq for Except

namespace SeqCore

/-- `SEQ_LOCAL_LOG_VALS` from seqlocalam.c: number of fetches pre-logged in
advance of actual demand. -/
def SEQ_LOCAL_LOG_VALS : Int := 32

/-- `FormData_pg_seq_local_data`: the tuple stored on the single page of a
local sequence relation. -/
structure SeqLocalData where
  last_value : Int
  log_cnt : Int
  is_called : Bool
deriving DecidableEq, Repr

/-- The mutable locals of `seq_local_nextval`'s fetch loop: `next`, `rescnt`,
`log` (named `fetchLog` here), `last` (the C code writes it through the output
pointer `*last`) and `result`. -/
structure FetchState where
  next : Int
  rescnt : Int
  fetchLog : Int
  last : Int
  result : Int
deriving DecidableEq, Repr

/-- The bookkeeping performed at the bottom of each fetch-loop iteration, after
`next` has been advanced: `fetch--` is accounted for by the fuel, and if
`rescnt < cache` the code does `log--; rescnt++; *last = next;` and records the
first produced value in `result`. -/
def fetchAccount (cache : Int) (s : FetchState) : FetchState :=
  if s.rescnt < cache then
    { s with
      fetchLog := s.fetchLog - 1
      rescnt := s.rescnt + 1
      last := s.next
      result := if s.rescnt + 1 = 1 then s.next else s.result }
  else s

/-- The `while (fetch)` loop of `seq_local_nextval`.  The loop variable
`fetch` is non-negative throughout (it starts at `cache` or `cache - 1`,
optionally augmented by `SEQ_LOCAL_LOG_VALS`, and is only decremented), so it
is represented by the `Nat` fuel; on `break` the remaining value of `fetch` is
returned together with the loop state. -/
def fetchLoop (incby maxv minv cache : Int) (cycle : Bool) :
    Nat → FetchState → Except Unit (Nat × FetchState)
  | 0, s => .ok (0, s)
  | f + 1, s =>
    if incby > 0 then
      -- ascending sequence
      if (maxv ≥ 0 ∧ s.next > maxv - incby) ∨ (maxv < 0 ∧ s.next + incby > maxv) then
        if s.rescnt > 0 then
          .ok (f + 1, s)
        else if cycle then
          fetchLoop incby maxv minv cache cycle f (fetchAccount cache { s with next := minv })
        else
          .error ()
      else
        fetchLoop incby maxv minv cache cycle f (fetchAccount cache { s with next := s.next + incby })
    else
      -- descending sequence
      if (minv < 0 ∧ s.next < minv - incby) ∨ (minv ≥ 0 ∧ s.next + incby < minv) then
        if s.rescnt > 0 then
          .ok (f + 1, s)
        else if cycle then
          fetchLoop incby maxv minv cache cycle f (fetchAccount cache { s with next := maxv })
        else
          .error ()
      else
        fetchLoop incby maxv minv cache cycle f (fetchAccount cache { s with next := s.next + incby })

/-- The number of cache-filling iterations a fetch loop of `F` iterations
performs when no limit is hit: it runs until `rescnt` reaches `cache` or the
fuel runs out. -/
def loopAwayDelta (cache rescnt : Int) (F : Nat) : Int :=
  min (F : Int) (cache - rescnt)

/-- Outcome of a successful `seq_local_nextval` call: the returned value, the
output parameter `*last`, the in-buffer tuple as rewritten at the end of the
call, and the tuple captured by the WAL record when one is emitted (the state
registered at the `XLogInsert` call, i.e. `{next, 0, true}`). -/
structure SeqLocalNextResult where
  result : Int
  last : Int
  newSeq : SeqLocalData
  walRecord : Option SeqLocalData
deriving DecidableEq, Repr

/-- The initial `fetch` count of `seq_local_nextval`: `cache`, lowered by one
when the not-yet-called `last_value` itself is the first value returned. -/
def seqFetch1 (seq : SeqLocalData) (cache : Int) : Int :=
  if seq.is_called then cache else cache - 1

/-- The `logit` decision of `seq_local_nextval`: log when the pre-logged
budget cannot satisfy the demand or the sequence was never called; otherwise
log only when the page's LSN does not exceed the latest checkpoint's redo
pointer. -/
def seqLogit (seq : SeqLocalData) (cache : Int) (pageLsnLeRedo : Bool) : Bool :=
  if seq.log_cnt < seqFetch1 seq cache ∨ seq.is_called = false then true
  else pageLsnLeRedo

/-- The augmented fetch count: `SEQ_LOCAL_LOG_VALS` extra values are grabbed
whenever a WAL record will be written. -/
def seqFetch2 (seq : SeqLocalData) (cache : Int) (pageLsnLeRedo : Bool) : Int :=
  if seqLogit seq cache pageLsnLeRedo then seqFetch1 seq cache + SEQ_LOCAL_LOG_VALS
  else seqFetch1 seq cache

/-- The fetch-loop entry state of `seq_local_nextval`: `next`, `last` and
`result` start at `last_value`, `rescnt` at 1 exactly when the sequence was
never called, and `log` is raised to the augmented fetch count when logging. -/
def seqStartState (seq : SeqLocalData) (cache : Int) (pageLsnLeRedo : Bool) :
    FetchState :=
  { next := seq.last_value
    rescnt := if seq.is_called then 0 else 1
    fetchLog := if seqLogit seq cache pageLsnLeRedo
                then seqFetch1 seq cache + SEQ_LOCAL_LOG_VALS else seq.log_cnt
    last := seq.last_value
    result := seq.last_value }

/-- `seq_local_nextval` from seqlocalam.c, for a WAL-logged relation.
`pageLsnLeRedo` stands for the environmental condition
`PageGetLSN(page) <= GetRedoRecPtr()` (page last written at or before the
latest checkpoint), which forces a WAL record even when enough values are
pre-logged. -/
def seq_local_nextval (seq : SeqLocalData) (incby maxv minv cache : Int)
    (cycle : Bool) (pageLsnLeRedo : Bool) : Except Unit SeqLocalNextResult :=
  (fetchLoop incby maxv minv cache cycle (seqFetch2 seq cache pageLsnLeRedo).toNat
      (seqStartState seq cache pageLsnLeRedo)).map fun p =>
    { result := p.2.result, last := p.2.last,
      newSeq := { last_value := p.2.last, log_cnt := p.2.fetchLog - (p.1 : Int),
                  is_called := true },
      walRecord := if seqLogit seq cache pageLsnLeRedo
                   then some { last_value := p.2.next, log_cnt := 0, is_called := true }
                   else none }

/-- The in-buffer tuple after a `seq_local_nextval` call: the C code mutates
the tuple only after the fetch loop has finished, so a call that errors out
(the `ereport` inside the loop) leaves the tuple exactly as it was. -/
def seq_local_nextval_state (seq : SeqLocalData) (incby maxv minv cache : Int)
    (cycle : Bool) (pageLsnLeRedo : Bool) : SeqLocalData :=
  match seq_local_nextval seq incby maxv minv cache cycle pageLsnLeRedo with
  | .ok r => r.newSeq
  | .error _ => seq

/-- `seq_local_setval` from seqlocalam.c: overwrite the tuple with
`{next, 0, iscalled}` (the previous tuple contents are irrelevant); on a
WAL-logged relation a WAL record carrying that same tuple is then emitted
unconditionally. -/
def seq_local_setval (_seq : SeqLocalData) (next : Int) (iscalled : Bool) : SeqLocalData :=
  { last_value := next, log_cnt := 0, is_called := iscalled }

/-! ## Session cache layer (src/backend/commands/sequence.c) -/

/-- `SeqTableData`: the per-session cache entry for one sequence.  `filenumber`
is the last seen relfilenumber of the sequence's storage (the "file epoch"),
`last` the value last returned by nextval, `cached` the last value already
fetched from the strategy. -/
structure SeqTableEntry where
  filenumber : Int
  last_valid : Bool
  last : Int
  cached : Int
  increment : Int
deriving DecidableEq, Repr

/-- The epoch check of `init_sequence`: if the sequence storage has been
transactionally replaced since this entry last saw it (its relfilenumber
changed), discard cached-but-unissued values (`cached := last`) without
touching the currval state (`last`, `last_valid`). -/
def init_sequence_cache (elm : SeqTableEntry) (relfilenode : Int) : SeqTableEntry :=
  if relfilenode ≠ elm.filenumber then
    { elm with filenumber := relfilenode, cached := elm.last }
  else elm

/-- Outcome of a successful `nextval_internal` call.  `strategyCalled` records
whether the sequence access method's nextval callback was entered at all. -/
structure NextvalOutcome where
  result : Int
  elm : SeqTableEntry
  seq : SeqLocalData
  strategyCalled : Bool
  walRecord : Option SeqLocalData
deriving DecidableEq, Repr

/-- `nextval_internal` from sequence.c, for a local sequence.  First
`init_sequence` refreshes the cache entry against the current relfilenumber;
then, if cached values remain (`last ≠ cached`), one is returned by advancing
`last` by `increment` with no strategy call; otherwise the strategy's nextval
runs and the entry is refilled from its outcome.  Permission, read-only and
parallel-mode checks are outside the scope of this model. -/
def nextval_internal (elm0 : SeqTableEntry) (relfilenode : Int) (seq : SeqLocalData)
    (incby maxv minv cache : Int) (cycle : Bool) (pageLsnLeRedo : Bool) :
    Except Unit NextvalOutcome :=
  let elm := init_sequence_cache elm0 relfilenode
  if elm.last ≠ elm.cached then
    .ok { result := elm.last + elm.increment,
          elm := { elm with last := elm.last + elm.increment },
          seq := seq, strategyCalled := false, walRecord := none }
  else
    match seq_local_nextval seq incby maxv minv cache cycle pageLsnLeRedo with
    | .error e => .error e
    | .ok r =>
      .ok { result := r.result,
            elm := { elm with increment := incby, last := r.result, cached := r.last,
                              last_valid := true },
            seq := r.newSeq, strategyCalled := true, walRecord := r.walRecord }

/-- `do_setval` from sequence.c, for a local sequence whose cache entry has
already been opened (epoch-refreshed).  Validates the new value against
`[minv, maxv]` before any mutation; on success updates the currval state only
when `iscalled` is true, always drops cached-but-unissued values, and calls the
strategy's setval. -/
def do_setval (elm : SeqTableEntry) (seq : SeqLocalData) (minv maxv next : Int)
    (iscalled : Bool) : Except Unit (SeqTableEntry × SeqLocalData) :=
  if next < minv ∨ next > maxv then .error ()
  else
    let elm1 := if iscalled then { elm with last := next, last_valid := true } else elm
    let elm2 := { elm1 with cached := elm1.last }
    .ok (elm2, seq_local_setval seq next iscalled)

/-- The session and page state after a `do_setval` call; on the out-of-bounds
error the `ereport` fires before any assignment, leaving both untouched. -/
def do_setval_state (elm : SeqTableEntry) (seq : SeqLocalData) (minv maxv next : Int)
    (iscalled : Bool) : SeqTableEntry × SeqLocalData :=
  match do_setval elm seq minv maxv next iscalled with
  | .ok p => p
  | .error _ => (elm, seq)

/-- Combined session + page state, for iterating session-level nextval calls
against a single local sequence. -/
structure SessionState where
  elm : SeqTableEntry
  seq : SeqLocalData
deriving DecidableEq, Repr

/-- One session-level nextval call in a quiet environment: the storage file is
unchanged (relfilenumber as recorded) and no checkpoint intervened.  Also
reports whether the call emitted a WAL record. -/
def sessionNext (incby maxv minv cache : Int) (st : SessionState) :
    Except Unit (SessionState × Bool) :=
  match nextval_internal st.elm st.elm.filenumber st.seq incby maxv minv cache false false with
  | .error e => .error e
  | .ok o => .ok ({ elm := o.elm, seq := o.seq }, o.walRecord.isSome)

/-- Run `k` session-level nextval calls, counting emitted WAL records. -/
def runSession (incby maxv minv cache : Int) : Nat → SessionState → SessionState × Nat
  | 0, st => (st, 0)
  | k + 1, st =>
    match sessionNext incby maxv minv cache st with
    | .error _ => (st, 0)
    | .ok (st1, w) =>
      let p := runSession incby maxv minv cache k st1
      (p.1, (if w then 1 else 0) + p.2)

/-- Steady state of a local sequence in one session: the cache entry holds no
unissued values (`last = cached = v`) and the page tuple is
`{v, logc, is_called = true}`. -/
def steadyState (v logc inc : Int) : SessionState :=
  { elm := { filenumber := 0, last_valid := true, last := v, cached := v, increment := inc },
    seq := { last_value := v, log_cnt := logc, is_called := true } }

end SeqCore

namespace Snowflake

/-! ## Snowflake strategy (contrib/snowflake/snowflake.c)

The ID layout constants.  All quantities are non-negative (counter and machine
ID are masked below 2^12 and 2^10, the timestamp below 2^41, so the composed
64-bit value has a zero sign bit), hence `Nat` models the C arithmetic
exactly. -/

def SNOWFLAKE_COUNTER_MASK : Nat := 0xFFF
def SNOWFLAKE_MACHINE_ID_MASK : Nat := 0x3FF
def SNOWFLAKE_TIMESTAMP_MASK : Nat := 0x1FFFFFFFFFF
def SNOWFLAKE_COUNTER_SHIFT : Nat := 0
def SNOWFLAKE_MACHINE_ID_SHIFT : Nat := 12
def SNOWFLAKE_TIMESTAMP_SHIFT : Nat := 22

/-- The `snowflake_id_to_int64` macro: compose the raw 64-bit ID from the
counter, machine ID and millisecond timestamp fields. -/
def snowflake_id_to_int64 (time_ms machine count : Nat) : Nat :=
  ((count &&& SNOWFLAKE_COUNTER_MASK) <<< SNOWFLAKE_COUNTER_SHIFT) |||
  ((machine &&& SNOWFLAKE_MACHINE_ID_MASK) <<< SNOWFLAKE_MACHINE_ID_SHIFT) |||
  ((time_ms &&& SNOWFLAKE_TIMESTAMP_MASK) <<< SNOWFLAKE_TIMESTAMP_SHIFT)

/-- The `int64_to_snowflake_id` macro: decompose a raw ID into
`(time_ms, machine, count)` by shifting and masking. -/
def int64_to_snowflake_id (raw : Nat) : Nat × Nat × Nat :=
  ((raw >>> SNOWFLAKE_TIMESTAMP_SHIFT) &&& SNOWFLAKE_TIMESTAMP_MASK,
   (raw >>> SNOWFLAKE_MACHINE_ID_SHIFT) &&& SNOWFLAKE_MACHINE_ID_MASK,
   (raw >>> SNOWFLAKE_COUNTER_SHIFT) &&& SNOWFLAKE_COUNTER_MASK)

/-- `FormData_snowflake_data`: the tuple stored on a snowflake sequence's
page.  `count` is an `int16` in the C code; every write to it keeps it inside
`[0, 0xFFF]`. -/
structure SnowflakeData where
  count : Int
  is_called : Bool
deriving DecidableEq, Repr

/-- `snowflake_sequenceam_nextval`: increment the persisted counter; when it
passes `PG_INT16_MAX & SNOWFLAKE_COUNTER_MASK = 0xFFF`, restart it at 1 and
sleep one millisecond (with the page still locked) to force the timestamp
forward.  Returns the updated tuple, the composed raw ID and whether the call
slept.  `time_ms` stands for the `gettimeofday` reading taken after the
optional sleep; `machine_id` for the `snowflake.machine_id` GUC. -/
def snowflake_sequenceam_nextval (seq : SnowflakeData) (time_ms machine_id : Nat) :
    SnowflakeData × Nat × Bool :=
  let c1 : Int := seq.count + 1
  let c2 : Int := if c1 > 0xFFF then 1 else c1
  let slept : Bool := c1 > 0xFFF
  let raw := snowflake_id_to_int64 time_ms machine_id c2.toNat
  ({ count := c2, is_called := true }, raw, slept)

/-- `snowflake_sequenceam_setval`: store `next & SNOWFLAKE_COUNTER_MASK` in the
counter.  On two's-complement `int64`, `next & 0xFFF` equals the Euclidean
remainder `next % 2^12` for every `next`, including negative ones. -/
def snowflake_sequenceam_setval (_seq : SnowflakeData) (next : Int) (iscalled : Bool) :
    SnowflakeData :=
  { count := next % 4096, is_called := iscalled }

/-- `snowflake_sequenceam_reset`: copy the tuple, then overwrite the counter
with `startv & SNOWFLAKE_COUNTER_MASK` and `is_called`; `reset_state` is
ignored.  (The new tuple is installed on a fresh storage file.) -/
def snowflake_sequenceam_reset (_seq : SnowflakeData) (startv : Int) (is_called : Bool)
    (_reset_state : Bool) : SnowflakeData :=
  { count := startv % 4096, is_called := is_called }

/-- `snowflake_sequenceam_get_state`: report `(last_value, is_called)` where
`last_value` is the persisted counter. -/
def snowflake_sequenceam_get_state (seq : SnowflakeData) : Int × Bool :=
  (seq.count, seq.is_called)

/-- Run `k` successive snowflake nextval calls (the timestamp and machine ID
do not influence the counter), returning the final counter and how many of the
calls slept. -/
def snowflake_run : Nat → SnowflakeData → SnowflakeData × Nat
  | 0, seq => (seq, 0)
  | k + 1, seq =>
    let r := snowflake_sequenceam_nextval seq 0 1
    let p := snowflake_run k r.1
    (p.1, (if r.2.2 then 1 else 0) + p.2)

end Snowflake

namespace SeqCore

/-! ## Theorems -/

/-- C1 (counterexample): on a fresh ascending local sequence with start 1,
increment 1, cache 5 (`is_called = false`, `log_cnt = 0`), the first
`seq_local_nextval` leaves the in-buffer tuple with `log_cnt = 32`, not 36 as
claimed: of the `fetch + SEQ_LOCAL_LOG_VALS = 36` values fetched, the four
beyond the first that fill the cache each decrement `log`. -/
theorem claim_c1_counterexample :
    (seq_local_nextval ⟨1, 0, false⟩ 1 9223372036854775807 1 5 false false).map
        (fun r => r.newSeq.log_cnt) = .ok 32 ∧
    (seq_local_nextval ⟨1, 0, false⟩ 1 9223372036854775807 1 5 false false).map
        (fun r => r.newSeq.log_cnt) ≠ .ok 36 := by
  decide

/-- C1 (amended): the first `seq_local_nextval` on a fresh ascending local
sequence with start 1, increment 1, cache 5 returns 1, emits exactly one WAL
record whose logged tuple is `{last_value = 1 + 36 = 37, is_called = true,
log_count = 0}` (the state after `log` further fetches past `last`), and
leaves the in-buffer tuple `{last_value = 5, is_called = true,
log_count = SEQ_LOCAL_LOG_VALS = 32}`. -/
theorem claim_c1_amended :
    seq_local_nextval ⟨1, 0, false⟩ 1 9223372036854775807 1 5 false false =
      .ok { result := 1, last := 5,
            newSeq := { last_value := 5, log_cnt := 32, is_called := true },
            walRecord := some { last_value := 37, log_cnt := 0, is_called := true } } := by
  decide

/-- C2: on a local sequence created with start 1, min 1, max 3, increment 1,
cache 1, no cycle (`is_called = false`), four successive nextval calls return
1, 2, 3, and the fourth fails with the sequence-limit error while leaving the
tuple `(last_value, log_cnt, is_called)` unchanged. -/
theorem claim_c2 :
    seq_local_nextval ⟨1, 0, false⟩ 1 3 1 1 false false =
      .ok { result := 1, last := 1, newSeq := ⟨1, 2, true⟩,
            walRecord := some ⟨3, 0, true⟩ } ∧
    seq_local_nextval ⟨1, 2, true⟩ 1 3 1 1 false false =
      .ok { result := 2, last := 2, newSeq := ⟨2, 1, true⟩, walRecord := none } ∧
    seq_local_nextval ⟨2, 1, true⟩ 1 3 1 1 false false =
      .ok { result := 3, last := 3, newSeq := ⟨3, 0, true⟩, walRecord := none } ∧
    seq_local_nextval ⟨3, 0, true⟩ 1 3 1 1 false false = .error () ∧
    seq_local_nextval_state ⟨3, 0, true⟩ 1 3 1 1 false false = ⟨3, 0, true⟩ := by
  decide

/-- C3 (counterexample): `setval(5, is_called = false)` on a sequence whose
session entry currently holds `last = cached = 10` with `last_valid = true`
(bounds 1..100) leaves the entry's `last` at 10; the claim's
`last_returned := v` would require 5. -/
theorem claim_c3_counterexample :
    (do_setval ⟨0, true, 10, 10, 1⟩ ⟨10, 5, true⟩ 1 100 5 false).map (fun p => p.1.last) =
      .ok 10 ∧
    (do_setval ⟨0, true, 10, 10, 1⟩ ⟨10, 5, true⟩ 1 100 5 false).map (fun p => p.1.last) ≠
      .ok 5 := by
  decide

/-- C3 (amended): for `setval(v, is_called)` with `v ∈ [min, max]`: when
`is_called = true` the session entry becomes `last = cached = v` with
`last_valid = true`; when `is_called = false` the entry's `last` and
`last_valid` are unchanged and `cached := last` (cached values dropped).  In
both cases the local strategy's on-page tuple becomes
`{last_value = v, is_called, log_cnt = 0}`.  A call with `v` outside
`[min, max]` fails before any state mutation. -/
theorem claim_c3_amended (elm : SeqTableEntry) (seq : SeqLocalData)
    (minv maxv v : Int) (b : Bool) :
    (minv ≤ v → v ≤ maxv →
      do_setval elm seq minv maxv v b =
        .ok (if b then { elm with last := v, cached := v, last_valid := true }
             else { elm with cached := elm.last },
             { last_value := v, log_cnt := 0, is_called := b })) ∧
    (v < minv ∨ maxv < v →
      do_setval elm seq minv maxv v b = .error () ∧
      do_setval_state elm seq minv maxv v b = (elm, seq)) := by
  constructor
  · intro h1 h2
    rw [do_setval, if_neg (by omega)]
    cases b <;> simp [seq_local_setval]
  · intro h
    have hcond : v < minv ∨ v > maxv := by omega
    rw [do_setval_state, do_setval, if_pos hcond]
    exact ⟨rfl, rfl⟩

/-- C3 witness: the amended theorem applied at `v = 7 ∈ [1, 100]`,
`is_called = true`, and at the out-of-range `v = 200`. -/
theorem claim_c3_amended_witness :
    do_setval ⟨0, false, 3, 3, 1⟩ ⟨3, 9, true⟩ 1 100 7 true =
      .ok (⟨0, true, 7, 7, 1⟩, ⟨7, 0, true⟩) ∧
    do_setval ⟨0, false, 3, 3, 1⟩ ⟨3, 9, true⟩ 1 100 200 true = .error () := by
  refine ⟨?_, ?_⟩
  · exact (claim_c3_amended ⟨0, false, 3, 3, 1⟩ ⟨3, 9, true⟩ 1 100 7 true).1
      (by decide) (by decide)
  · exact ((claim_c3_amended ⟨0, false, 3, 3, 1⟩ ⟨3, 9, true⟩ 1 100 200 true).2
      (by decide)).1

/-- C7: the session-cache nextval path.  When the storage file is unchanged
and the entry holds cached values (`last_valid` with `last ≠ cached`),
`nextval_internal` returns `last + increment`, leaves the page untouched and
makes no strategy call; when the relfilenumber differs from the recorded one,
`init_sequence` drops the cached-but-unissued values (`cached := last`) while
preserving `last` and `last_valid` for currval. -/
theorem claim_c7 (elm : SeqTableEntry) (fn : Int) (seq : SeqLocalData)
    (incby maxv minv cache : Int) (cycle flag : Bool) :
    (elm.filenumber = fn → elm.last_valid = true → elm.last ≠ elm.cached →
      nextval_internal elm fn seq incby maxv minv cache cycle flag =
        .ok { result := elm.last + elm.increment,
              elm := { elm with last := elm.last + elm.increment },
              seq := seq, strategyCalled := false, walRecord := none }) ∧
    (fn ≠ elm.filenumber →
      (init_sequence_cache elm fn).cached = elm.last ∧
      (init_sequence_cache elm fn).last = elm.last ∧
      (init_sequence_cache elm fn).last_valid = elm.last_valid) := by
  constructor
  · intro hfn _ hne
    have h1 : ¬fn ≠ elm.filenumber := by omega
    rw [nextval_internal, init_sequence_cache, if_neg h1, if_pos hne]
  · intro hfn
    rw [init_sequence_cache, if_pos hfn]
    exact ⟨rfl, rfl, rfl⟩

/-- C7 witness: a cache entry with `last = 10`, `cached = 12`,
`increment = 1`: nextval returns 11 without entering the strategy; and a
changed relfilenumber drops the cached values while keeping `last = 10`. -/
theorem claim_c7_witness :
    nextval_internal ⟨4, true, 10, 12, 1⟩ 4 ⟨12, 7, true⟩ 1 100 1 1 false false =
      .ok { result := 11, elm := ⟨4, true, 11, 12, 1⟩, seq := ⟨12, 7, true⟩,
            strategyCalled := false, walRecord := none } ∧
    (init_sequence_cache ⟨4, true, 10, 12, 1⟩ 9).cached = 10 ∧
    (init_sequence_cache ⟨4, true, 10, 12, 1⟩ 9).last = 10 := by
  refine ⟨?_, ?_, ?_⟩
  · exact (claim_c7 ⟨4, true, 10, 12, 1⟩ 4 ⟨12, 7, true⟩ 1 100 1 1 false false).1
      (by decide) (by decide) (by decide)
  · exact ((claim_c7 ⟨4, true, 10, 12, 1⟩ 9 ⟨12, 7, true⟩ 1 100 1 1 false false).2
      (by decide)).1
  · exact ((claim_c7 ⟨4, true, 10, 12, 1⟩ 9 ⟨12, 7, true⟩ 1 100 1 1 false false).2
      (by decide)).2.1

/-- Extracting the underlying loop outcome from a successful mapped call. -/
theorem except_map_ok {ε α β : Type} {g : α → β} {x : Except ε α} {r : β}
    (h : Except.map g x = .ok r) : ∃ y, x = .ok y ∧ r = g y := by
  cases x with
  | error e => simp [Except.map] at h
  | ok y =>
    refine ⟨y, rfl, ?_⟩
    rw [show Except.map g (Except.ok y) = Except.ok (g y) from rfl] at h
    injection h with h2
    exact h2.symm

/-- `fetchAccount` never changes the tentative `next` value. -/
theorem fetchAccount_next (cache : Int) (s : FetchState) :
    (fetchAccount cache s).next = s.next := by
  unfold fetchAccount
  split <;> rfl

/-- `fetchAccount` either records the freshly computed value as the running
result or leaves the result alone. -/
theorem fetchAccount_result_cases (cache : Int) (s : FetchState) :
    (fetchAccount cache s).result = s.next ∨ (fetchAccount cache s).result = s.result := by
  unfold fetchAccount
  split
  · dsimp only
    split
    · exact Or.inl rfl
    · exact Or.inr rfl
  · exact Or.inr rfl

/-- Once a value has been produced (`rescnt > 0`), `fetchAccount` leaves the
result untouched and keeps `rescnt` positive. -/
theorem fetchAccount_frozen (cache : Int) (s : FetchState) (h : 0 < s.rescnt) :
    (fetchAccount cache s).result = s.result ∧ 0 < (fetchAccount cache s).rescnt := by
  unfold fetchAccount
  split
  · dsimp only
    constructor
    · rw [if_neg (by omega)]
    · omega
  · exact ⟨rfl, h⟩

/-- Range invariant of the fetch loop of a cycling sequence: if the tentative
value and the running result start inside `[minv, maxv]`, the loop cannot
error and its final result stays inside `[minv, maxv]`. -/
theorem fetchLoop_range (incby maxv minv cache : Int) (hinc : incby ≠ 0)
    (hmm : minv ≤ maxv) :
    ∀ (F : Nat) (s : FetchState) (p : Nat × FetchState),
      minv ≤ s.next → s.next ≤ maxv → minv ≤ s.result → s.result ≤ maxv →
      fetchLoop incby maxv minv cache true F s = .ok p →
      minv ≤ p.2.result ∧ p.2.result ≤ maxv := by
  intro F
  induction F with
  | zero =>
    intro s p _ _ h3 h4 hp
    simp only [fetchLoop] at hp
    injection hp with h
    subst h
    exact ⟨h3, h4⟩
  | succ f ih =>
    intro s p h1 h2 h3 h4 hp
    simp only [fetchLoop] at hp
    by_cases hpos : incby > 0
    · rw [if_pos hpos] at hp
      by_cases hov : (maxv ≥ 0 ∧ s.next > maxv - incby) ∨ (maxv < 0 ∧ s.next + incby > maxv)
      · rw [if_pos hov] at hp
        by_cases hres : s.rescnt > 0
        · rw [if_pos hres] at hp
          injection hp with h
          subst h
          exact ⟨h3, h4⟩
        · rw [if_neg hres] at hp
          refine ih _ p ?_ ?_ ?_ ?_ hp
          · rw [fetchAccount_next]
          · rw [fetchAccount_next]
            exact hmm
          · rcases fetchAccount_result_cases cache { s with next := minv } with hr | hr
            · rw [hr]
            · rw [hr]
              exact h3
          · rcases fetchAccount_result_cases cache { s with next := minv } with hr | hr
            · rw [hr]
              exact hmm
            · rw [hr]
              exact h4
      · rw [if_neg hov] at hp
        have hub : s.next + incby ≤ maxv := by omega
        have hlb : minv ≤ s.next + incby := by omega
        refine ih _ p ?_ ?_ ?_ ?_ hp
        · rw [fetchAccount_next]
          exact hlb
        · rw [fetchAccount_next]
          exact hub
        · rcases fetchAccount_result_cases cache { s with next := s.next + incby } with hr | hr
          · rw [hr]
            exact hlb
          · rw [hr]
            exact h3
        · rcases fetchAccount_result_cases cache { s with next := s.next + incby } with hr | hr
          · rw [hr]
            exact hub
          · rw [hr]
            exact h4
    · rw [if_neg hpos] at hp
      have hneg : incby < 0 := by omega
      by_cases hov : (minv < 0 ∧ s.next < minv - incby) ∨ (minv ≥ 0 ∧ s.next + incby < minv)
      · rw [if_pos hov] at hp
        by_cases hres : s.rescnt > 0
        · rw [if_pos hres] at hp
          injection hp with h
          subst h
          exact ⟨h3, h4⟩
        · rw [if_neg hres] at hp
          refine ih _ p ?_ ?_ ?_ ?_ hp
          · rw [fetchAccount_next]
            exact hmm
          · rw [fetchAccount_next]
          · rcases fetchAccount_result_cases cache { s with next := maxv } with hr | hr
            · rw [hr]
              exact hmm
            · rw [hr]
              exact h3
          · rcases fetchAccount_result_cases cache { s with next := maxv } with hr | hr
            · rw [hr]
            · rw [hr]
              exact h4
      · rw [if_neg hov] at hp
        have hub : s.next + incby ≤ maxv := by omega
        have hlb : minv ≤ s.next + incby := by omega
        refine ih _ p ?_ ?_ ?_ ?_ hp
        · rw [fetchAccount_next]
          exact hlb
        · rw [fetchAccount_next]
          exact hub
        · rcases fetchAccount_result_cases cache { s with next := s.next + incby } with hr | hr
          · rw [hr]
            exact hlb
          · rw [hr]
            exact h3
        · rcases fetchAccount_result_cases cache { s with next := s.next + incby } with hr | hr
          · rw [hr]
            exact hub
          · rw [hr]
            exact h4

/-- Once a value has been produced (`rescnt > 0`), the fetch loop can no
longer error (any limit overflow breaks out instead), and its final result is
already fixed. -/
theorem fetchLoop_frozen (incby maxv minv cache : Int) (cy : Bool) :
    ∀ (F : Nat) (s : FetchState), 0 < s.rescnt →
      ∃ p, fetchLoop incby maxv minv cache cy F s = .ok p ∧ p.2.result = s.result := by
  intro F
  induction F with
  | zero =>
    intro s _
    exact ⟨(0, s), by simp only [fetchLoop], rfl⟩
  | succ f ih =>
    intro s h
    by_cases hpos : incby > 0
    · by_cases hov : (maxv ≥ 0 ∧ s.next > maxv - incby) ∨ (maxv < 0 ∧ s.next + incby > maxv)
      · refine ⟨(f + 1, s), ?_, rfl⟩
        simp only [fetchLoop]
        rw [if_pos hpos, if_pos hov, if_pos h]
      · obtain ⟨hres, hrpos⟩ := fetchAccount_frozen cache { s with next := s.next + incby } h
        obtain ⟨p, hp, hpres⟩ := ih _ hrpos
        refine ⟨p, ?_, by rw [hpres, hres]⟩
        simp only [fetchLoop]
        rw [if_pos hpos, if_neg hov]
        exact hp
    · by_cases hov : (minv < 0 ∧ s.next < minv - incby) ∨ (minv ≥ 0 ∧ s.next + incby < minv)
      · refine ⟨(f + 1, s), ?_, rfl⟩
        simp only [fetchLoop]
        rw [if_neg hpos, if_pos hov, if_pos h]
      · obtain ⟨hres, hrpos⟩ := fetchAccount_frozen cache { s with next := s.next + incby } h
        obtain ⟨p, hp, hpres⟩ := ih _ hrpos
        refine ⟨p, ?_, by rw [hpres, hres]⟩
        simp only [fetchLoop]
        rw [if_neg hpos, if_neg hov]
        exact hp

/-- A non-empty fetch loop started before any value was produced
(`rescnt = 0`) whose first advance does not overflow fixes its result at
`next + incby`. -/
theorem fetchLoop_first_result (incby maxv minv cache : Int) (cy : Bool) (F : Nat)
    (s : FetchState) (hF : F ≠ 0) (h0 : s.rescnt = 0) (hc : 1 ≤ cache)
    (hno1 : ¬(maxv ≥ 0 ∧ s.next > maxv - incby) ∧ ¬(maxv < 0 ∧ s.next + incby > maxv))
    (hno2 : ¬(minv < 0 ∧ s.next < minv - incby) ∧ ¬(minv ≥ 0 ∧ s.next + incby < minv)) :
    ∃ p, fetchLoop incby maxv minv cache cy F s = .ok p ∧
      p.2.result = s.next + incby := by
  obtain ⟨f, rfl⟩ : ∃ f, F = f + 1 := ⟨F - 1, by omega⟩
  have hacc : fetchAccount cache { s with next := s.next + incby } =
      { next := s.next + incby, rescnt := s.rescnt + 1, fetchLog := s.fetchLog - 1,
        last := s.next + incby, result := s.next + incby } := by
    rw [fetchAccount,
      if_pos (by dsimp only; omega :
        ({ s with next := s.next + incby } : FetchState).rescnt < cache)]
    dsimp only
    rw [if_pos (by omega : s.rescnt + 1 = 1)]
  obtain ⟨p, hp, hpres⟩ := fetchLoop_frozen incby maxv minv cache cy f
      (fetchAccount cache { s with next := s.next + incby })
      (by rw [hacc]; dsimp only; omega)
  refine ⟨p, ?_, by rw [hpres, hacc]⟩
  by_cases hpos : incby > 0
  · simp only [fetchLoop]
    rw [if_pos hpos, if_neg (by tauto)]
    exact hp
  · simp only [fetchLoop]
    rw [if_neg hpos, if_neg (by tauto)]
    exact hp

/-- Mapped-call form of `fetchLoop_range`, matching the shape of
`seq_local_nextval`. -/
theorem map_result_range (incby maxv minv cache : Int) (F : Nat) (s : FetchState)
    (g : Nat × FetchState → SeqLocalNextResult)
    (hg : ∀ p, (g p).result = p.2.result) (hinc : incby ≠ 0) (hmm : minv ≤ maxv)
    (h1 : minv ≤ s.next) (h2 : s.next ≤ maxv) (h3 : minv ≤ s.result)
    (h4 : s.result ≤ maxv) :
    ∀ z, Except.map (fun r => r.result)
        ((fetchLoop incby maxv minv cache true F s).map g) = .ok z →
      minv ≤ z ∧ z ≤ maxv := by
  intro z hz
  cases hloop : fetchLoop incby maxv minv cache true F s with
  | error e =>
    rw [hloop] at hz
    simp [Except.map] at hz
  | ok p =>
    rw [hloop] at hz
    have hb := fetchLoop_range incby maxv minv cache hinc hmm F s p h1 h2 h3 h4 hloop
    simp [Except.map, hg p] at hz
    omega

/-- Mapped-call form of `fetchLoop_frozen`. -/
theorem map_result_of_frozen (incby maxv minv cache : Int) (cy : Bool) (F : Nat)
    (s : FetchState) (g : Nat × FetchState → SeqLocalNextResult)
    (hg : ∀ p, (g p).result = p.2.result) (h : 0 < s.rescnt) :
    Except.map (fun r => r.result)
        ((fetchLoop incby maxv minv cache cy F s).map g) = .ok s.result := by
  obtain ⟨p, hp, hres⟩ := fetchLoop_frozen incby maxv minv cache cy F s h
  rw [hp]
  simp [Except.map, hg p, hres]

/-- Mapped-call form of `fetchLoop_first_result`. -/
theorem map_result_first (incby maxv minv cache : Int) (cy : Bool) (F : Nat)
    (s : FetchState) (g : Nat × FetchState → SeqLocalNextResult)
    (hg : ∀ p, (g p).result = p.2.result) (hF : F ≠ 0) (h0 : s.rescnt = 0)
    (hc : 1 ≤ cache)
    (hno1 : ¬(maxv ≥ 0 ∧ s.next > maxv - incby) ∧ ¬(maxv < 0 ∧ s.next + incby > maxv))
    (hno2 : ¬(minv < 0 ∧ s.next < minv - incby) ∧ ¬(minv ≥ 0 ∧ s.next + incby < minv)) :
    Except.map (fun r => r.result)
        ((fetchLoop incby maxv minv cache cy F s).map g) = .ok (s.next + incby) := by
  obtain ⟨p, hp, hres⟩ := fetchLoop_first_result incby maxv minv cache cy F s hF h0 hc
    hno1 hno2
  rw [hp]
  simp [Except.map, hg p, hres]

/-- An ascending fetch loop running entirely inside the value domain (no
limit reached in `F` steps) consumes all its fuel and is described exactly:
`next` advances by `F * incby`, the first `loopAwayDelta` iterations fill the
cache (each decrementing the log budget and advancing `last`), and the first
iteration fixes the result when none was produced yet. -/
theorem fetchLoop_away (incby maxv minv cache : Int) (cy : Bool)
    (hinc : 0 < incby) (hcache : 1 ≤ cache) :
    ∀ (F : Nat) (s : FetchState),
      0 ≤ s.rescnt → s.rescnt ≤ cache → s.next + F * incby ≤ maxv →
      fetchLoop incby maxv minv cache cy F s =
        .ok (0, { next := s.next + F * incby,
                  rescnt := s.rescnt + loopAwayDelta cache s.rescnt F,
                  fetchLog := s.fetchLog - loopAwayDelta cache s.rescnt F,
                  last := if 0 < loopAwayDelta cache s.rescnt F
                          then s.next + loopAwayDelta cache s.rescnt F * incby
                          else s.last,
                  result := if s.rescnt = 0 ∧ 0 < F then s.next + incby
                            else s.result }) := by
  intro F
  induction F with
  | zero =>
    intro s h0 hsc _
    have hd : loopAwayDelta cache s.rescnt 0 = 0 := by
      simp only [loopAwayDelta, Nat.cast_zero]
      omega
    simp only [fetchLoop, hd, Nat.cast_zero]
    norm_num
  | succ f ih =>
    intro s h0 hsc hb
    have hexp : ((f : Int) + 1) * incby = (f : Int) * incby + incby := by ring
    have hfnn : 0 ≤ (f : Int) * incby :=
      mul_nonneg (by positivity) (le_of_lt hinc)
    have hb1 : s.next + ((f : Int) + 1) * incby ≤ maxv := by
      have : ((f + 1 : Nat) : Int) = (f : Int) + 1 := by push_cast; ring
      rw [this] at hb
      exact hb
    have hstep : s.next + incby ≤ maxv := by
      rw [hexp] at hb1
      linarith
    simp only [fetchLoop]
    rw [if_pos hinc, if_neg (by omega :
      ¬((maxv ≥ 0 ∧ s.next > maxv - incby) ∨ (maxv < 0 ∧ s.next + incby > maxv)))]
    have hb2 : (s.next + incby) + (f : Int) * incby ≤ maxv := by
      rw [hexp] at hb1
      linarith
    by_cases hlt : s.rescnt < cache
    · have hacc : fetchAccount cache { s with next := s.next + incby } =
          { next := s.next + incby, rescnt := s.rescnt + 1, fetchLog := s.fetchLog - 1,
            last := s.next + incby,
            result := if s.rescnt = 0 then s.next + incby else s.result } := by
        rw [fetchAccount, if_pos (by dsimp only; omega :
          ({ s with next := s.next + incby } : FetchState).rescnt < cache)]
        dsimp only
        by_cases hz : s.rescnt = 0
        · rw [if_pos (by omega : s.rescnt + 1 = 1), if_pos hz]
        · rw [if_neg (by omega : ¬s.rescnt + 1 = 1), if_neg hz]
      rw [hacc]
      rw [ih { next := s.next + incby, rescnt := s.rescnt + 1,
               fetchLog := s.fetchLog - 1, last := s.next + incby,
               result := if s.rescnt = 0 then s.next + incby else s.result }
          (by dsimp only; omega) (by dsimp only; omega) (by dsimp only; exact hb2)]
      have hd : loopAwayDelta cache (s.rescnt + 1) f =
          loopAwayDelta cache s.rescnt (f + 1) - 1 := by
        simp only [loopAwayDelta]
        push_cast
        omega
      have hdpos : 0 < loopAwayDelta cache s.rescnt (f + 1) := by
        simp only [loopAwayDelta]
        push_cast
        omega
      simp only [Except.ok.injEq, Prod.mk.injEq, FetchState.mk.injEq]
      refine ⟨by trivial, ?_, ?_, ?_, ?_, ?_⟩
      · push_cast
        ring
      · omega
      · omega
      · rw [if_pos hdpos]
        by_cases hz : 0 < loopAwayDelta cache (s.rescnt + 1) f
        · rw [if_pos hz]
          have hd1 : loopAwayDelta cache s.rescnt (f + 1) =
              loopAwayDelta cache (s.rescnt + 1) f + 1 := by omega
          rw [hd1]
          ring
        · rw [if_neg hz]
          have hd1 : loopAwayDelta cache s.rescnt (f + 1) = 1 := by omega
          rw [hd1]
          ring
      · rw [if_neg (by omega : ¬(s.rescnt + 1 = 0 ∧ 0 < f))]
        by_cases hz : s.rescnt = 0
        · rw [if_pos hz, if_pos (⟨hz, by omega⟩ : s.rescnt = 0 ∧ 0 < f + 1)]
        · rw [if_neg hz, if_neg (by tauto : ¬(s.rescnt = 0 ∧ 0 < f + 1))]
    · have hacc : fetchAccount cache { s with next := s.next + incby } =
          { s with next := s.next + incby } := by
        rw [fetchAccount, if_neg (by dsimp only; omega :
          ¬({ s with next := s.next + incby } : FetchState).rescnt < cache)]
      rw [hacc]
      rw [ih { s with next := s.next + incby }
          (by dsimp only; omega) (by dsimp only; omega) (by dsimp only; exact hb2)]
      have hd0 : loopAwayDelta cache s.rescnt f = 0 := by
        simp only [loopAwayDelta]
        omega
      have hd1 : loopAwayDelta cache s.rescnt (f + 1) = 0 := by
        simp only [loopAwayDelta]
        omega
      have hns : ¬s.rescnt = 0 := by omega
      simp only [Except.ok.injEq, Prod.mk.injEq, FetchState.mk.injEq, hd0, hd1, hns,
        false_and, if_false, if_neg (by omega : ¬(0 : Int) < 0), true_and, and_true,
        sub_zero, add_zero]
      try push_cast
      try ring

/-- A `seq_local_nextval` call on an already-called ascending sequence far
from its limits, with no intervening checkpoint: it consumes `N` values
(returning the first and caching through `v + N * incby`), emits no WAL record
while the pre-logged budget `l` covers the demand (leaving `log_cnt = l - N`),
and otherwise logs a record capturing the state `N + 32` fetches ahead and
resets the budget to 32. -/
theorem seq_local_nextval_away (v l inc maxv minv N : Int)
    (hinc : 0 < inc) (hN : 1 ≤ N) (hl : 0 ≤ l)
    (hbound : v + (N + 32) * inc ≤ maxv) :
    seq_local_nextval ⟨v, l, true⟩ inc maxv minv N false false =
      (if N ≤ l then
        .ok { result := v + inc, last := v + N * inc,
              newSeq := ⟨v + N * inc, l - N, true⟩, walRecord := none }
      else
        .ok { result := v + inc, last := v + N * inc,
              newSeq := ⟨v + N * inc, 32, true⟩,
              walRecord := some ⟨v + (N + 32) * inc, 0, true⟩ }) := by
  have hf1 : seqFetch1 ⟨v, l, true⟩ N = N := rfl
  have hx : (N + 32) * inc = N * inc + 32 * inc := by ring
  have h32 : 0 ≤ 32 * inc := by positivity
  have hb' := hbound
  rw [hx] at hb'
  by_cases hcase : N ≤ l
  · have hlogit : seqLogit ⟨v, l, true⟩ N false = false := by
      rw [seqLogit, hf1, if_neg]
      rintro (h | h)
      · dsimp only at h
        omega
      · simp at h
    have hstart : seqStartState ⟨v, l, true⟩ N false = ⟨v, 0, l, v, v⟩ := by
      rw [seqStartState, hlogit]
      rfl
    have hf2 : seqFetch2 ⟨v, l, true⟩ N false = N := by
      rw [seqFetch2, hlogit, hf1]
      rfl
    rw [if_pos hcase, seq_local_nextval, hf2, hstart, hlogit]
    have hcast : ((N.toNat : Nat) : Int) = N := by omega
    rw [fetchLoop_away inc maxv minv N false hinc hN N.toNat ⟨v, 0, l, v, v⟩
      (by norm_num) (by dsimp only; omega) (by dsimp only; rw [hcast]; linarith)]
    have hdelta : loopAwayDelta N 0 N.toNat = N := by
      simp only [loopAwayDelta]
      omega
    have h0N : 0 < N.toNat := by omega
    simp only [Except.map, hdelta, hcast, Except.ok.injEq, SeqLocalNextResult.mk.injEq,
      SeqLocalData.mk.injEq, Nat.cast_zero, sub_zero]
    repeat' apply And.intro
    all_goals
      first
        | (rw [if_pos (⟨trivial, h0N⟩ : True ∧ 0 < N.toNat)])
        | (rw [if_pos (by omega : (0 : Int) < N)])
        | trivial
        | (norm_num; done)
        | omega
  · have hlogit : seqLogit ⟨v, l, true⟩ N false = true := by
      rw [seqLogit, hf1, if_pos (Or.inl (by dsimp only; omega))]
    have hstart : seqStartState ⟨v, l, true⟩ N false =
        ⟨v, 0, N + SEQ_LOCAL_LOG_VALS, v, v⟩ := by
      rw [seqStartState, hlogit, hf1]
      rfl
    have hf2 : seqFetch2 ⟨v, l, true⟩ N false = N + SEQ_LOCAL_LOG_VALS := by
      rw [seqFetch2, hlogit, hf1]
      rfl
    rw [if_neg hcase, seq_local_nextval, hf2, hstart, hlogit]
    have hcast : (((N + SEQ_LOCAL_LOG_VALS).toNat : Nat) : Int) = N + 32 := by
      simp only [SEQ_LOCAL_LOG_VALS]
      omega
    rw [fetchLoop_away inc maxv minv N false hinc hN (N + SEQ_LOCAL_LOG_VALS).toNat
      ⟨v, 0, N + SEQ_LOCAL_LOG_VALS, v, v⟩ (by norm_num) (by dsimp only; omega)
      (by dsimp only; rw [hcast]; linarith)]
    have hcast2 : (((N + 32).toNat : Nat) : Int) = N + 32 := by omega
    have hdelta : loopAwayDelta N 0 (N + 32).toNat = N := by
      simp only [loopAwayDelta]
      omega
    have h0N : (0 : Nat) < (N + 32).toNat := by omega
    simp only [SEQ_LOCAL_LOG_VALS, Except.map, hdelta, hcast2, Except.ok.injEq,
      SeqLocalNextResult.mk.injEq, SeqLocalData.mk.injEq, Nat.cast_zero, sub_zero,
      Option.some.injEq]
    repeat' apply And.intro
    all_goals
      first
        | (rw [if_pos (⟨trivial, h0N⟩ : True ∧ 0 < (N + 32).toNat)])
        | (rw [if_pos (by omega : (0 : Int) < N)])
        | trivial
        | (norm_num; done)
        | omega

/-- One session-level nextval call from a steady state (no cached values
left, tuple `{v, l, true}`), away from the limits: the strategy is entered,
`N` values are fetched, and a WAL record is emitted exactly when the
pre-logged budget `l` is insufficient. -/
theorem sessionNext_steady (v l inc maxv minv N : Int)
    (hinc : 0 < inc) (hN : 1 ≤ N) (hl : 0 ≤ l)
    (hbound : v + (N + 32) * inc ≤ maxv) :
    sessionNext inc maxv minv N (steadyState v l inc) =
      (if N ≤ l then
        .ok ({ elm := ⟨0, true, v + inc, v + N * inc, inc⟩,
               seq := ⟨v + N * inc, l - N, true⟩ }, false)
      else
        .ok ({ elm := ⟨0, true, v + inc, v + N * inc, inc⟩,
               seq := ⟨v + N * inc, 32, true⟩ }, true)) := by
  rw [sessionNext, nextval_internal, init_sequence_cache]
  rw [if_neg (show ¬(steadyState v l inc).elm.filenumber ≠ (steadyState v l inc).elm.filenumber
    from fun h => h rfl)]
  rw [if_neg (show ¬(steadyState v l inc).elm.last ≠ (steadyState v l inc).elm.cached
    from fun h => h rfl)]
  rw [show (steadyState v l inc).seq = ⟨v, l, true⟩ from rfl]
  rw [seq_local_nextval_away v l inc maxv minv N hinc hN hl hbound]
  by_cases hcase : N ≤ l
  · rw [if_pos hcase, if_pos hcase]
    rfl
  · rw [if_neg hcase, if_neg hcase]
    rfl

/-- A state on which a session call fails keeps failing: the run stops
there with no further WAL records. -/
theorem runSession_error (inc maxv minv N : Int) (b : Nat) (st : SessionState) (e : Unit)
    (hs : sessionNext inc maxv minv N st = .error e) :
    runSession inc maxv minv N b st = (st, 0) := by
  cases b with
  | zero => rfl
  | succ b2 => simp only [runSession, hs]

/-- Splitting a run of session-level nextval calls: the state threads through
and the WAL counts add (an error state reproduces itself, so the equation also
holds across a failed call). -/
theorem runSession_add (inc maxv minv N : Int) (a b : Nat) (st : SessionState) :
    runSession inc maxv minv N (a + b) st =
      ((runSession inc maxv minv N b (runSession inc maxv minv N a st).1).1,
       (runSession inc maxv minv N a st).2 +
         (runSession inc maxv minv N b (runSession inc maxv minv N a st).1).2) := by
  induction a generalizing st with
  | zero => simp [runSession]
  | succ a ih =>
    have hab : a + 1 + b = (a + b) + 1 := by omega
    rw [hab]
    simp only [runSession]
    cases hs : sessionNext inc maxv minv N st with
    | error e =>
      simp only [hs]
      rw [runSession_error inc maxv minv N b st e hs]
      simp
    | ok p =>
      simp only [hs, ih, Prod.mk.injEq]
      exact ⟨by trivial, by omega⟩

/-- Cached values are consumed one per session-level call with no strategy
entry and no WAL traffic; after `k` calls the entry has caught up with its
cache. -/
theorem sessionConsume (inc maxv minv N : Int) :
    ∀ (k : Nat) (elm : SeqTableEntry) (seq : SeqLocalData),
      0 < elm.increment → elm.cached = elm.last + k * elm.increment →
      runSession inc maxv minv N k ⟨elm, seq⟩ =
        (⟨{ elm with last := elm.cached }, seq⟩, 0) := by
  intro k
  induction k with
  | zero =>
    intro elm seq _ hc
    have hcl : elm.cached = elm.last := by
      have h0 : ((0 : Nat) : Int) * elm.increment = 0 := by simp
      omega
    obtain ⟨fn, lv, la, ca, incr⟩ := elm
    dsimp only at hcl
    subst hcl
    simp [runSession]
  | succ k ih =>
    intro elm seq hpos hc
    have hP : (0 : Int) < ((k + 1 : Nat) : Int) * elm.increment := by
      apply mul_pos _ hpos
      exact_mod_cast Nat.succ_pos k
    have hne : elm.last ≠ elm.cached := by omega
    simp only [runSession, sessionNext, nextval_internal, init_sequence_cache]
    rw [if_neg (show ¬(⟨elm, seq⟩ : SessionState).elm.filenumber ≠
      (⟨elm, seq⟩ : SessionState).elm.filenumber from fun h => h rfl)]
    rw [if_pos (show (⟨elm, seq⟩ : SessionState).elm.last ≠
      (⟨elm, seq⟩ : SessionState).elm.cached from hne)]
    have hexp : ((k + 1 : Nat) : Int) * elm.increment =
        (k : Int) * elm.increment + elm.increment := by
      push_cast
      ring
    have hstep := ih { elm with last := elm.last + elm.increment } seq hpos
      (by dsimp only; omega)
    dsimp only
    rw [hstep]
    rfl

/-- A block of `N` session-level nextval calls from a steady state with
pre-logged budget `l`: when `l` covers the block no WAL record is written and
the budget drops by `N`; otherwise exactly one record is written and the
budget is reset to 32.  Either way the sequence advances by `N * inc` and
returns to a steady state. -/
theorem sessionBlock (v l inc maxv minv : Int) (N : Nat)
    (hinc : 0 < inc) (hN : 1 ≤ N) (hl : 0 ≤ l)
    (hbound : v + ((N : Int) + 32) * inc ≤ maxv) :
    runSession inc maxv minv (N : Int) N (steadyState v l inc) =
      (if (N : Int) ≤ l then (steadyState (v + (N : Int) * inc) (l - (N : Int)) inc, 0)
       else (steadyState (v + (N : Int) * inc) 32 inc, 1)) := by
  obtain ⟨m, rfl⟩ : ∃ m, N = m + 1 := ⟨N - 1, by omega⟩
  have hNi : (1 : Int) ≤ ((m + 1 : Nat) : Int) := by exact_mod_cast hN
  simp only [runSession]
  rw [sessionNext_steady v l inc maxv minv ((m + 1 : Nat) : Int) hinc hNi hl hbound]
  have hconsume := sessionConsume inc maxv minv ((m + 1 : Nat) : Int) m
    ⟨0, true, v + inc, v + ((m + 1 : Nat) : Int) * inc, inc⟩
  have hcc : (⟨0, true, v + inc, v + ((m + 1 : Nat) : Int) * inc, inc⟩ :
      SeqTableEntry).cached =
      (⟨0, true, v + inc, v + ((m + 1 : Nat) : Int) * inc, inc⟩ :
        SeqTableEntry).last +
      (m : Int) * (⟨0, true, v + inc, v + ((m + 1 : Nat) : Int) * inc, inc⟩ :
        SeqTableEntry).increment := by
    dsimp only
    push_cast
    ring
  by_cases hcase : ((m + 1 : Nat) : Int) ≤ l
  · rw [if_pos hcase, if_pos hcase]
    dsimp only
    rw [hconsume ⟨v + ((m + 1 : Nat) : Int) * inc, l - ((m + 1 : Nat) : Int), true⟩
      hinc hcc]
    rfl
  · rw [if_neg hcase, if_neg hcase]
    dsimp only
    rw [hconsume ⟨v + ((m + 1 : Nat) : Int) * inc, 32, true⟩ hinc hcc]
    rfl

/-- `k` consecutive blocks of `N` session calls whose pre-logged budget `l`
covers them all (`k * N ≤ l`): no WAL record is written, the sequence advances
by `k * N * inc`, and the budget drops by `k * N`. -/
theorem sessionBlocks (inc maxv minv : Int) (N : Nat)
    (hinc : 0 < inc) (hN : 1 ≤ N) :
    ∀ (k : Nat) (v l : Int), 0 ≤ l → (k : Int) * (N : Int) ≤ l →
      v + ((k : Int) * (N : Int) + 32) * inc ≤ maxv →
      runSession inc maxv minv (N : Int) (k * N) (steadyState v l inc) =
        (steadyState (v + (k : Int) * (N : Int) * inc) (l - (k : Int) * (N : Int)) inc,
         0) := by
  intro k
  induction k with
  | zero =>
    intro v l _ _ _
    simp only [Nat.zero_mul, Nat.cast_zero, zero_mul, runSession]
    norm_num
  | succ k ih =>
    intro v l hl hkl hb
    rw [show (k + 1) * N = N + k * N from by ring]
    rw [runSession_add]
    have hkl2 : ((k : Int) + 1) * (N : Int) ≤ l := by exact_mod_cast hkl
    have hbb : v + (((k : Int) + 1) * (N : Int) + 32) * inc ≤ maxv := by exact_mod_cast hb
    have hbridge1 : ((k : Int) + 1) * (N : Int) = (k : Int) * (N : Int) + (N : Int) := by
      ring
    have hkNpos : (0 : Int) ≤ (k : Int) * (N : Int) := by positivity
    have hNl : (N : Int) ≤ l := by omega
    have hb1 : v + ((N : Int) + 32) * inc ≤ maxv := by
      have hexp : (((k : Int) + 1) * (N : Int) + 32) * inc =
          ((N : Int) + 32) * inc + ((k : Int) * (N : Int)) * inc := by ring
      have hpos : 0 ≤ ((k : Int) * (N : Int)) * inc := by positivity
      rw [hexp] at hbb
      linarith
    rw [sessionBlock v l inc maxv minv N hinc hN hl hb1]
    rw [if_pos hNl]
    have hbih : (v + (N : Int) * inc) + ((k : Int) * (N : Int) + 32) * inc ≤ maxv := by
      have hexp2 : v + (N : Int) * inc + ((k : Int) * (N : Int) + 32) * inc =
          v + (((k : Int) + 1) * (N : Int) + 32) * inc := by ring
      rw [hexp2]
      exact hbb
    rw [ih (v + (N : Int) * inc) (l - (N : Int)) (by omega) (by omega) hbih]
    have hfin1 : v + (N : Int) * inc + (k : Int) * (N : Int) * inc =
        v + ((k + 1 : Nat) : Int) * (N : Int) * inc := by push_cast; ring
    have hfin2 : l - (N : Int) - (k : Int) * (N : Int) =
        l - ((k + 1 : Nat) : Int) * (N : Int) := by push_cast; ring
    rw [hfin1, hfin2]
    simp

set_option maxRecDepth 20000 in
/-- C5 (counterexample): with cache `N = 33`, an ascending local sequence in
steady state (pre-logged budget 32) emits two WAL records within the next
`N + 32 = 65` session-level nextval calls, not one: every strategy call must
log because the budget 32 never covers a demand of 33. -/
theorem claim_c5_counterexample :
    (runSession 1 1000000000 1 33 65 (steadyState 1000 32 1)).2 = 2 ∧
    (runSession 1 1000000000 1 33 65 (steadyState 1000 32 1)).2 ≠ 1 := by
  constructor
  · decide
  · decide

/-- C5 (amended): for every cache size `N ≥ 1` that divides
`SEQ_LOCAL_LOG_VALS = 32`, an ascending local sequence away from its limits
emits exactly one WAL record per `N + 32` session-level nextval calls from
steady state, returning to steady state `N + 32` values further on (so the
pattern repeats indefinitely). -/
theorem claim_c5_amended (N : Nat) (v inc maxv minv : Int)
    (hN : 1 ≤ N) (hdvd : N ∣ 32) (hinc : 0 < inc)
    (hbound : v + ((N : Int) + 64) * inc ≤ maxv) :
    runSession inc maxv minv (N : Int) (N + 32) (steadyState v 32 inc) =
      (steadyState (v + ((N : Int) + 32) * inc) 32 inc, 1) := by
  obtain ⟨q, hq⟩ := hdvd
  have hqN : q * N = 32 := by
    rw [Nat.mul_comm]
    omega
  have hcast32 : (q : Int) * (N : Int) = 32 := by exact_mod_cast hqN
  have hNi : (1 : Int) ≤ (N : Int) := by exact_mod_cast hN
  rw [show N + 32 = q * N + N from by omega]
  rw [runSession_add]
  have hb64 : v + ((q : Int) * (N : Int) + 32) * inc ≤ maxv := by
    rw [hcast32]
    have hexp : ((N : Int) + 64) * inc = (32 + 32) * inc + ((N : Int) * inc) := by ring
    rw [hexp] at hbound
    have hpos : 0 ≤ (N : Int) * inc := by positivity
    linarith
  rw [sessionBlocks inc maxv minv N hinc hN q v 32 (by norm_num)
    (by rw [hcast32]) hb64]
  rw [hcast32]
  rw [show (32 : Int) - 32 = 0 from by norm_num]
  have hbblock : (v + 32 * inc) + ((N : Int) + 32) * inc ≤ maxv := by
    have hexp : v + 32 * inc + ((N : Int) + 32) * inc = v + ((N : Int) + 64) * inc := by
      ring
    rw [hexp]
    exact hbound
  rw [sessionBlock (v + 32 * inc) 0 inc maxv minv N hinc hN (by norm_num) hbblock]
  rw [if_neg (by omega : ¬(N : Int) ≤ 0)]
  have hfin : v + 32 * inc + (N : Int) * inc = v + ((N : Int) + 32) * inc := by ring
  rw [hfin]
  norm_num

/-- C5 witness: the amended statement at cache 4 (a divisor of 32), start
1000, increment 1, bounds 1..10^9: the 36 calls following steady state emit
exactly one WAL record and land in steady state at 1036. -/
theorem claim_c5_amended_witness :
    runSession 1 1000000000 1 ((4 : Nat) : Int) (4 + 32) (steadyState 1000 32 1) =
      (steadyState (1000 + (((4 : Nat) : Int) + 32) * 1) 32 1, 1) :=
  claim_c5_amended 4 1000 1 1000000000 1 (by norm_num) (by norm_num) (by norm_num)
    (by norm_num)

/-- C4: on a cycling local sequence created with start 1, min 1, max 3,
increment 1, cache 1 (`is_called = false`), five successive nextval calls
return exactly 1, 2, 3, 1, 2; and in general every value a cycling local
sequence returns lies in `[min, max]` (given a well-formed range and a
current `last_value` inside it). -/
theorem claim_c4 :
    (seq_local_nextval ⟨1, 0, false⟩ 1 3 1 1 true false =
        .ok { result := 1, last := 1, newSeq := ⟨1, 2, true⟩,
              walRecord := some ⟨3, 0, true⟩ } ∧
      seq_local_nextval ⟨1, 2, true⟩ 1 3 1 1 true false =
        .ok { result := 2, last := 2, newSeq := ⟨2, 1, true⟩, walRecord := none } ∧
      seq_local_nextval ⟨2, 1, true⟩ 1 3 1 1 true false =
        .ok { result := 3, last := 3, newSeq := ⟨3, 0, true⟩, walRecord := none } ∧
      seq_local_nextval ⟨3, 0, true⟩ 1 3 1 1 true false =
        .ok { result := 1, last := 1, newSeq := ⟨1, 2, true⟩,
              walRecord := some ⟨3, 0, true⟩ } ∧
      seq_local_nextval ⟨1, 2, true⟩ 1 3 1 1 true false =
        .ok { result := 2, last := 2, newSeq := ⟨2, 1, true⟩, walRecord := none }) ∧
    ∀ (seq : SeqLocalData) (incby maxv minv cache : Int) (flag : Bool)
      (r : SeqLocalNextResult),
      incby ≠ 0 → minv ≤ maxv → minv ≤ seq.last_value → seq.last_value ≤ maxv →
      seq_local_nextval seq incby maxv minv cache true flag = .ok r →
      minv ≤ r.result ∧ r.result ≤ maxv := by
  constructor
  · exact ⟨by decide, by decide, by decide, by decide, by decide⟩
  · intro seq incby maxv minv cache flag r hinc hmm hl hu hcall
    have hz : Except.map (fun x => x.result)
        (seq_local_nextval seq incby maxv minv cache true flag) = .ok r.result := by
      rw [hcall]
      rfl
    exact map_result_range incby maxv minv cache _ _ _ (fun p => rfl) hinc hmm
      hl hu hl hu r.result hz

/-- C4 witness: the general in-range statement applied to the first call of
the concrete trace. -/
theorem claim_c4_witness :
    (1 : Int) ≤ 1 ∧ (1 : Int) ≤ 3 :=
  claim_c4.2 ⟨1, 0, false⟩ 1 3 1 1 false ⟨1, 1, ⟨1, 2, true⟩, some ⟨3, 0, true⟩⟩
    (by decide) (by decide) (by decide) (by decide) (by decide)

/-- C6: on a non-cycling local sequence with increment `k`, when both `v` and
`v + k` lie within `[min, max]`: `set(v, true)` followed by `next()` returns
`v + k`, and `set(v, false)` followed by `next()` returns `v`. -/
theorem claim_c6 (seq0 : SeqLocalData) (v k minv maxv cache : Int) (flag : Bool)
    (hk : k ≠ 0) (hcache : 1 ≤ cache) (h1 : minv ≤ v) (h2 : v ≤ maxv)
    (h3 : minv ≤ v + k) (h4 : v + k ≤ maxv) :
    Except.map (fun r => r.result)
        (seq_local_nextval (seq_local_setval seq0 v true) k maxv minv cache false flag) =
      .ok (v + k) ∧
    Except.map (fun r => r.result)
        (seq_local_nextval (seq_local_setval seq0 v false) k maxv minv cache false flag) =
      .ok v := by
  constructor
  · have hno1 : ¬(maxv ≥ 0 ∧ v > maxv - k) ∧ ¬(maxv < 0 ∧ v + k > maxv) := by
      constructor <;> intro hx <;> omega
    have hno2 : ¬(minv < 0 ∧ v < minv - k) ∧ ¬(minv ≥ 0 ∧ v + k < minv) := by
      constructor <;> intro hx <;> omega
    have hF : (if (if (0 : Int) < cache ∨ true = false then true else flag) = true
        then cache + SEQ_LOCAL_LOG_VALS else cache).toNat ≠ 0 := by
      rw [if_pos (Or.inl (by omega)), if_pos rfl]
      simp only [SEQ_LOCAL_LOG_VALS]
      omega
    exact map_result_first k maxv minv cache false _ _ _ (fun p => rfl) hF rfl hcache
      hno1 hno2
  · exact map_result_of_frozen k maxv minv cache false _ _ _ (fun p => rfl)
      (by simp [seq_local_setval, seqStartState])

/-- C6 witness: with `v = 42`, `k = 1`, bounds 1..100, cache 1:
`set(42, true); next()` returns 43 and `set(42, false); next()` returns 42. -/
theorem claim_c6_witness :
    Except.map (fun r => r.result)
        (seq_local_nextval (seq_local_setval ⟨0, 0, true⟩ 42 true) 1 100 1 1 false false) =
      .ok 43 ∧
    Except.map (fun r => r.result)
        (seq_local_nextval (seq_local_setval ⟨0, 0, true⟩ 42 false) 1 100 1 1 false false) =
      .ok 42 :=
  claim_c6 ⟨0, 0, true⟩ 42 1 1 100 1 false (by decide) (by decide) (by decide)
    (by decide) (by decide) (by decide)

end SeqCore

namespace Snowflake

/-- C8: the snowflake ID codec round-trips: for all `t < 2^41`, `m < 2^10`,
`c < 2^12`, decomposing the raw 64-bit value
`(t & 0x1FFFFFFFFFF) << 22 | (m & 0x3FF) << 12 | (c & 0xFFF)` by shifting and
masking yields exactly `(t, m, c)`. -/
theorem claim_c8 (t m c : Nat) (ht : t < 2 ^ 41) (hm : m < 2 ^ 10) (hc : c < 2 ^ 12) :
    int64_to_snowflake_id (snowflake_id_to_int64 t m c) = (t, m, c) := by
  have hmask12 : SNOWFLAKE_COUNTER_MASK = 2 ^ 12 - 1 := by decide
  have hmask10 : SNOWFLAKE_MACHINE_ID_MASK = 2 ^ 10 - 1 := by decide
  have hmask41 : SNOWFLAKE_TIMESTAMP_MASK = 2 ^ 41 - 1 := by decide
  have henc : snowflake_id_to_int64 t m c = 2 ^ 22 * t + (2 ^ 12 * m + c) := by
    rw [snowflake_id_to_int64, hmask12, hmask10, hmask41,
      Nat.and_pow_two_sub_one_of_lt_two_pow hc,
      Nat.and_pow_two_sub_one_of_lt_two_pow hm,
      Nat.and_pow_two_sub_one_of_lt_two_pow ht,
      SNOWFLAKE_COUNTER_SHIFT, SNOWFLAKE_MACHINE_ID_SHIFT, SNOWFLAKE_TIMESTAMP_SHIFT,
      Nat.shiftLeft_zero, Nat.shiftLeft_eq, Nat.shiftLeft_eq,
      Nat.lor_comm c, mul_comm m, ← Nat.mul_add_lt_is_or hc m,
      Nat.lor_comm, mul_comm t,
      ← Nat.mul_add_lt_is_or (show 2 ^ 12 * m + c < 2 ^ 22 by omega) t]
  rw [henc, int64_to_snowflake_id, hmask12, hmask10, hmask41,
    SNOWFLAKE_COUNTER_SHIFT, SNOWFLAKE_MACHINE_ID_SHIFT, SNOWFLAKE_TIMESTAMP_SHIFT]
  simp only [Nat.shiftRight_eq_div_pow, Nat.and_pow_two_sub_one_eq_mod, Prod.mk.injEq]
  refine ⟨?_, ?_, ?_⟩ <;> omega

/-- C8 witness: the round-trip at `t = 123456`, `m = 5`, `c = 7`. -/
theorem claim_c8_witness :
    int64_to_snowflake_id (snowflake_id_to_int64 123456 5 7) = (123456, 5, 7) :=
  claim_c8 123456 5 7 (by decide) (by decide) (by decide)

/-- Decomposing a run of snowflake nextval calls: the state threads through
and the sleep counts add. -/
theorem snowflake_run_add (a b : Nat) (s : SnowflakeData) :
    snowflake_run (a + b) s =
      ((snowflake_run b (snowflake_run a s).1).1,
       (snowflake_run a s).2 + (snowflake_run b (snowflake_run a s).1).2) := by
  induction a generalizing s with
  | zero => simp [snowflake_run]
  | succ a ih =>
    have hab : a + 1 + b = (a + b) + 1 := by omega
    rw [hab]
    simp only [snowflake_run, ih, Prod.mk.injEq]
    exact ⟨by trivial, by omega⟩

/-- A run of snowflake nextval calls that stays below the counter threshold
sleeps never and advances the counter by one per call. -/
theorem snowflake_run_no_sleep (k : Nat) (c : Int) (h0 : 0 ≤ c)
    (hk : c + k ≤ 4095) :
    snowflake_run k ⟨c, true⟩ = (⟨c + k, true⟩, 0) := by
  induction k generalizing c with
  | zero => simp [snowflake_run]
  | succ k ih =>
    rw [snowflake_run]
    have hstep : snowflake_sequenceam_nextval ⟨c, true⟩ 0 1 =
        (⟨c + 1, true⟩, snowflake_id_to_int64 0 1 (c + 1).toNat, false) := by
      simp only [snowflake_sequenceam_nextval]
      rw [if_neg (by omega)]
      simp
      omega
    rw [hstep]
    have hk' : (c + 1) + k ≤ 4095 := by omega
    rw [ih (c + 1) (by omega) hk']
    have hcast : c + 1 + (k : Int) = c + ((k + 1 : Nat) : Int) := by push_cast; ring
    rw [hcast]
    simp

/-- C9: for every snowflake nextval call on a counter `c ∈ [0, 0xFFF]`, the
persisted counter after the call is `c + 1` when `c + 1 ≤ 0xFFF` and `1`
otherwise, and the call executes the in-lock 1 ms sleep exactly when `c + 1`
exceeds `0xFFF`; consequently, among 4097 consecutive nextval calls starting
from counter 0, exactly one call sleeps. -/
theorem claim_c9 :
    (∀ (c : Int) (b : Bool) (t m : Nat), 0 ≤ c → c ≤ 0xFFF →
      (snowflake_sequenceam_nextval ⟨c, b⟩ t m).1.count =
        (if c + 1 ≤ 0xFFF then c + 1 else 1) ∧
      ((snowflake_sequenceam_nextval ⟨c, b⟩ t m).2.2 = true ↔ c + 1 > 0xFFF)) ∧
    (snowflake_run 4097 ⟨0, true⟩).2 = 1 := by
  constructor
  · intro c b t m _ _
    constructor
    · simp only [snowflake_sequenceam_nextval]
      split_ifs <;> omega
    · simp [snowflake_sequenceam_nextval]
  · have h1 : (4097 : Nat) = 4095 + 2 := by norm_num
    rw [h1, snowflake_run_add, snowflake_run_no_sleep 4095 0 (by norm_num) (by norm_num)]
    decide

/-- C9 witness: at counter 4095 the next call sleeps and restarts at 1; at
counter 17 it does not sleep and advances to 18. -/
theorem claim_c9_witness :
    (snowflake_sequenceam_nextval ⟨4095, true⟩ 0 1).1.count = 1 ∧
    (snowflake_sequenceam_nextval ⟨17, true⟩ 0 1).1.count = 18 := by
  constructor
  · have h := (claim_c9.1 4095 true 0 1 (by decide) (by decide)).1
    rw [h]
    decide
  · have h := (claim_c9.1 17 true 0 1 (by decide) (by decide)).1
    rw [h]
    decide

/-- C10: snowflake `setval` and `reset` keep only the low 12 bits of the
supplied value: the persisted counter equals `v & 0xFFF` (the Euclidean
`v % 4096`), so a following `get_state` reports `v mod 4096` instead of `v`
for every `v` outside `[0, 4096)`. -/
theorem claim_c10 (seq : SnowflakeData) (v : Int) (b rs : Bool) :
    (snowflake_sequenceam_get_state (snowflake_sequenceam_setval seq v b)).1 = v % 4096 ∧
    (snowflake_sequenceam_get_state (snowflake_sequenceam_reset seq v b rs)).1 = v % 4096 ∧
    (¬(0 ≤ v ∧ v < 4096) →
      (snowflake_sequenceam_get_state (snowflake_sequenceam_setval seq v b)).1 ≠ v) := by
  refine ⟨rfl, rfl, fun h => ?_⟩
  have h0 : 0 ≤ v % 4096 := Int.emod_nonneg v (by norm_num)
  have h1 : v % 4096 < 4096 := Int.emod_lt_of_pos v (by norm_num)
  simp only [snowflake_sequenceam_get_state, snowflake_sequenceam_setval]
  omega

/-- C10 witness: `setval(5000)` followed by `get_state` reports
`5000 % 4096 = 904`, not 5000. -/
theorem claim_c10_witness :
    (snowflake_sequenceam_get_state (snowflake_sequenceam_setval ⟨0, true⟩ 5000 true)).1 =
      904 ∧
    (snowflake_sequenceam_get_state (snowflake_sequenceam_setval ⟨0, true⟩ 5000 true)).1 ≠
      5000 := by
  constructor
  · have h := (claim_c10 ⟨0, true⟩ 5000 true true).1
    rw [h]
    decide
  · exact (claim_c10 ⟨0, true⟩ 5000 true true).2.2 (by decide)

end Snowflake

